import Mathlib

/-!
A verification development for the capacity-scheduling engine of the
Manufacturing Optimization repository (modules/models.py, modules/utils.py,
modules/scheduling.py).

Modelling conventions:
* Python floats are modelled as rationals, Python ints as integers.
* Calendar dates are modelled as integers counting days from an epoch that
  falls on a Monday (for the concrete scenarios below, day 0 is Monday
  2024-01-01), so Python date.weekday() becomes the Euclidean remainder
  day % 7 (correct for days before the epoch as well).
* Instants (datetime values) are rationals counting hours from epoch
  midnight; the date of an instant is the floor of instant / 24, and
  datetime.combine(day, 00:00).replace(hour=9) + timedelta(hours=h) becomes
  day * 24 + 9 + h.
* Python dicts are modelled as insertion-ordered association lists: alSet
  keeps the position of an existing key and appends a new key at the end,
  alGet mirrors dict.get with a default.  Python sets used only for
  membership tests (the seen set in normalize_equipment_ids) are replaced
  by membership in the result list, which the code keeps in lockstep with
  the set.
* The engine is pure except for the RuntimeError raised when the
  day-stepping loop exhausts its 3650-iteration budget, so compute_eta is
  modelled as an Option-valued function with none standing for the raised
  error.
* The explanation strings assembled by the Python code are presentation
  only and no claim refers to them; they are not modelled.
-/

namespace SINCO

/-- Lookup in an insertion-ordered association list with a default value,
mirroring Python dict.get(key, default). -/
def alGet [DecidableEq α] : List (α × β) → α → β → β
  | [], _, dflt => dflt
  | (k, v) :: rest, key, dflt => if k = key then v else alGet rest key dflt

/-- Update of an insertion-ordered association list, mirroring Python dict
assignment: an existing key keeps its position, a new key is appended. -/
def alSet [DecidableEq α] : List (α × β) → α → β → List (α × β)
  | [], key, v => [(key, v)]
  | (k, w) :: rest, key, v =>
      if k = key then (key, v) :: rest else (k, w) :: alSet rest key v

/-- Python max over a list of numbers; the code only applies it to nonempty
lists, the empty case is given the junk value 0. -/
def maxList : List ℚ → ℚ
  | [] => 0
  | x :: xs => xs.foldl max x

/-- modules/models.py, dataclass Phase. -/
structure Phase where
  name : String
  planned_hours : ℚ
  completed_hours : ℚ
  parallel_group : ℤ
  equipment_id : String
  assigned_employee : String
deriving DecidableEq, Inhabited

/-- modules/models.py, dataclass Product (unit_weight_g is never read by the
engine but kept for fidelity). -/
structure Product where
  product_id : String
  part_number : String
  quantity : ℤ
  produced_qty : ℤ
  unit_weight_g : ℚ
  phases : List Phase
deriving DecidableEq, Inhabited

/-- modules/models.py, dataclass Equipment. -/
structure Equipment where
  equipment_id : String
  category : String
  total_count : ℤ
  available_count : ℤ
  shift_template_name : String
deriving DecidableEq, Inhabited

/-- modules/models.py, dataclass ShiftDayPlan. -/
structure ShiftDayPlan where
  shift_count : ℤ
  hours_per_shift : ℚ
deriving DecidableEq, Inhabited

/-- ShiftDayPlan.total_hours: max(0, shift_count) * max(0.0, hours_per_shift). -/
def ShiftDayPlan.total_hours (p : ShiftDayPlan) : ℚ :=
  ((max 0 p.shift_count : ℤ) : ℚ) * max 0 p.hours_per_shift

/-- modules/models.py, dataclass ShiftTemplate. -/
structure ShiftTemplate where
  name : String
  week_plan : List ShiftDayPlan
deriving DecidableEq, Inhabited

/-- ShiftTemplate.hours_for_weekday (models.py lines 60-67): returns 0 for a
negative weekday, for a week plan of fewer than 7 entries, and for a weekday
index at or past the end of the week plan; otherwise indexes the plan. -/
def ShiftTemplate.hours_for_weekday (t : ShiftTemplate) (weekday : ℤ) : ℚ :=
  if weekday < 0 then 0
  else if t.week_plan.length < 7 then 0
  else if (t.week_plan.length : ℤ) ≤ weekday then 0
  else (t.week_plan.getD weekday.toNat ⟨0, 0⟩).total_hours

/-- modules/models.py, dataclass Event (a dated loss of hours). -/
structure Event where
  day : ℤ
  hours_lost : ℚ
  reason : String
  remark : String
deriving DecidableEq, Inhabited

/-- modules/models.py, dataclass CapacityAdjustment (dated overtime). -/
structure CapacityAdjustment where
  day : ℤ
  extra_hours : ℚ
  reason : String
  equipment_ids : List String
deriving DecidableEq, Inhabited

/-- modules/models.py, dataclass Order.  The fields the engine never reads
(order_date, customer_code, shipping_method, due_date, defects, employees,
logs) are omitted; compute_eta touches only the fields below. -/
structure Order where
  order_id : String
  start_dt : ℚ
  products : List Product
  events : List Event
  adjustments : List CapacityAdjustment
  equipment : List Equipment
deriving DecidableEq, Inhabited

/-- modules/scheduling.py, class WorkCalendar. -/
structure WorkCalendar where
  shift_template : Option ShiftTemplate
deriving DecidableEq, Inhabited

/-- Python date.weekday() for a day counted from a Monday epoch. -/
def weekday (d : ℤ) : ℤ := d % 7

/-- The calendar date of an instant, Python datetime.date(). -/
def dateOf (t : ℚ) : ℤ := ⌊t / 24⌋

/-- WorkCalendar.capacity_for_day (scheduling.py lines 20-24). -/
def capacity_for_day (cal : WorkCalendar) (d : ℤ) : ℚ :=
  match cal.shift_template with
  | none => 0
  | some t => t.hours_for_weekday (weekday d)

/-- utils.equipment_available_map_from_list: skips blank equipment ids and
stores max(0, available_count), later entries overwriting earlier ones. -/
def equipment_available_map_from_list (equipment : List Equipment) :
    List (String × ℤ) :=
  equipment.foldl
    (fun result eq =>
      if eq.equipment_id = "" then result
      else alSet result eq.equipment_id (max 0 eq.available_count))
    []

/-- utils.equipment_available_map. -/
def equipment_available_map (order : Order) : List (String × ℤ) :=
  equipment_available_map_from_list order.equipment

/-- utils.normalize_equipment_ids: trim each entry, drop blanks and the
sentinels, deduplicate keeping first occurrences. -/
def normalize_equipment_ids (items : List String) : List String :=
  items.foldl
    (fun result item =>
      let text := item.trim
      if text = "" ∨ text = "-" ∨ text = "无需设备" then result
      else if text ∈ result then result
      else result ++ [text])
    []

/-- utils.split_equipment_ids: comma-split then normalize, with empty and
sentinel whole strings mapped to the empty list. -/
def split_equipment_ids (text : String) : List String :=
  if text = "" then []
  else if text.trim = "-" ∨ text.trim = "无需设备" then []
  else normalize_equipment_ids (text.splitOn ",")

/-- utils.phase_effective_hours (utils.py lines 76-85): planned hours clamped
at 0, divided by pooled availability when the phase names equipment with
positive pooled availability. -/
def phase_effective_hours (phase : Phase) (quantity : ℤ)
    (equipment_map : List (String × ℤ)) : ℚ :=
  let base := max 0 phase.planned_hours
  let hours := base
  let equipment_ids := split_equipment_ids phase.equipment_id
  if equipment_ids ≠ [] then
    let available := (equipment_ids.map (fun id => max 0 (alGet equipment_map id 0))).sum
    if 0 < available then hours / (available : ℚ) else hours
  else hours

/-- utils.phase_total_hours. -/
def phase_total_hours (phase : Phase) (quantity : ℤ) : ℚ :=
  max 0 phase.planned_hours

/-- utils.phase_completion_ratio (utils.py lines 93-100). -/
def phase_completion_ratio (phase : Phase) (quantity : ℤ) : ℚ :=
  let total := phase_total_hours phase quantity
  if total ≤ 0 then 0
  else
    let completed := max 0 phase.completed_hours
    let clamped := min completed total
    clamped / total

/-- One phase's remaining hours, the expression
hours * (1.0 - ratio) from utils.product_remaining_hours. -/
def phase_remaining (phase : Phase) (quantity : ℤ)
    (equipment_map : List (String × ℤ)) : ℚ :=
  phase_effective_hours phase quantity equipment_map *
    (1 - phase_completion_ratio phase quantity)

/-- parallel_groups.setdefault(group, []).append(remaining): append the value
to an existing group entry, or append a new group at the end. -/
def addToGroups : List (ℤ × List ℚ) → ℤ → ℚ → List (ℤ × List ℚ)
  | [], g, v => [(g, [v])]
  | (k, vs) :: rest, g, v =>
      if k = g then (k, vs ++ [v]) :: rest else (k, vs) :: addToGroups rest g v

/-- The body of the phase loop in utils.product_remaining_hours: a phase in a
positive parallel group is filed under its group, any other phase adds its
remaining hours to the running total. -/
def prhStep (quantity : ℤ) (equipment_map : List (String × ℤ))
    (acc : ℚ × List (ℤ × List ℚ)) (phase : Phase) : ℚ × List (ℤ × List ℚ) :=
  let remaining := phase_remaining phase quantity equipment_map
  if 0 < phase.parallel_group then
    (acc.1, addToGroups acc.2 phase.parallel_group remaining)
  else (acc.1 + remaining, acc.2)

/-- utils.product_remaining_hours (utils.py lines 103-117): sequential phases
are summed, each positive parallel group contributes the max of its members. -/
def product_remaining_hours (product : Product)
    (equipment_map : List (String × ℤ)) : ℚ :=
  let acc := product.phases.foldl (prhStep product.quantity equipment_map)
    ((0 : ℚ), ([] : List (ℤ × List ℚ)))
  acc.2.foldl (fun total grp => total + maxList grp.2) acc.1

/-- The lost-hours ledger of compute_eta (scheduling.py lines 46-50):
lost_map[ev.day] = lost_map.get(ev.day, 0.0) + ev.hours_lost. -/
def build_lost_map (events : List Event) : List (ℤ × ℚ) :=
  events.foldl
    (fun m ev => alSet m ev.day (alGet m ev.day 0 + ev.hours_lost)) []

/-- The per-adjustment bonus of compute_eta (scheduling.py lines 56-57):
extra_hours times max(equipment_count, 1), where equipment_count is the
number of named machines, or 1 when none are named. -/
def adjExtraTotal (adj : CapacityAdjustment) : ℚ :=
  adj.extra_hours *
    ((max (if adj.equipment_ids.isEmpty then 1 else adj.equipment_ids.length) 1 : ℕ) : ℚ)

/-- The extra-hours ledger of compute_eta (scheduling.py lines 53-58). -/
def build_extra_map (adjustments : List CapacityAdjustment) : List (ℤ × ℚ) :=
  adjustments.foldl
    (fun m adj => alSet m adj.day (alGet m adj.day 0 + adjExtraTotal adj)) []

/-- The state in which the day-stepping loop of compute_eta terminates
successfully: the day the loop stopped on, the hours still to consume on that
day (the hours_left of the final iteration), and the accumulated
daily_capacity_map.  The finish instant reported by compute_eta is
finish_day at 09:00 plus hours_left wall-clock hours. -/
structure LoopOut where
  finish_day : ℤ
  hours_left : ℚ
  dcm : List (ℤ × ℚ)
deriving DecidableEq, Inhabited

/-- The day-stepping loop of compute_eta (scheduling.py lines 93-128),
recursing on the remaining iteration budget.  none models falling out of the
loop and raising RuntimeError. -/
def eta_day_loop (cal : WorkCalendar) (lost_map extra_map : List (ℤ × ℚ)) :
    ℕ → ℤ → ℚ → List (ℤ × ℚ) → Option LoopOut
  | 0, _, _, _ => none
  | fuel + 1, current_day, hours_left, dcm =>
      let base_cap := capacity_for_day cal current_day
      let lost := alGet lost_map current_day 0
      let extra := alGet extra_map current_day 0
      let cap := max (base_cap - lost + extra) 0
      if 0 < base_cap ∨ 0 < extra ∨ 0 < lost then
        let dcm2 := alSet dcm current_day cap
        if 0 < cap then
          if hours_left ≤ cap then some ⟨current_day, hours_left, dcm2⟩
          else eta_day_loop cal lost_map extra_map fuel (current_day + 1)
            (hours_left - cap) dcm2
        else eta_day_loop cal lost_map extra_map fuel (current_day + 1)
          hours_left dcm2
      else eta_day_loop cal lost_map extra_map fuel (current_day + 1)
        hours_left dcm

/-- Total remaining hours of an order, the sum computed at scheduling.py
line 43. -/
def order_remaining_hours (order : Order) : ℚ :=
  (order.products.map
    (fun p => product_remaining_hours p (equipment_available_map order))).sum

/-- The day-stepping phase of compute_eta on an order: the loop run with the
order's ledgers, a budget of 3650 days, starting at the date of the start
instant with the full remaining hours and an empty capacity map. -/
def compute_eta_day_phase (order : Order) (cal : WorkCalendar) : Option LoopOut :=
  eta_day_loop cal (build_lost_map order.events) (build_extra_map order.adjustments)
    3650 (dateOf order.start_dt) (order_remaining_hours order) []

/-- The result dictionary of compute_eta (explanation strings omitted). -/
structure EtaResult where
  eta_dt : ℚ
  remaining_hours : ℚ
  daily_capacity_map : List (ℤ × ℚ)
deriving DecidableEq, Inhabited

/-- modules/scheduling.py compute_eta (lines 27-130): if no hours remain the
start instant is returned unchanged with an empty capacity map; otherwise the
day-stepping loop runs and, on success, the finish instant is 09:00 of the
terminal day plus the leftover hours; loop exhaustion (none) models the
RuntimeError. -/
def compute_eta (order : Order) (cal : WorkCalendar) : Option EtaResult :=
  let remaining_hours := order_remaining_hours order
  if remaining_hours ≤ 0 then
    some ⟨order.start_dt, 0, []⟩
  else
    match compute_eta_day_phase order cal with
    | some out =>
        some ⟨(out.finish_day : ℚ) * 24 + 9 + out.hours_left, remaining_hours, out.dcm⟩
    | none => none

/-- Replace the extra_hours of adjustment i of an order (out-of-range i
leaves the order unchanged). -/
def setAdjExtra (order : Order) (i : ℕ) (v : ℚ) : Order :=
  { order with adjustments :=
      order.adjustments.set i { order.adjustments.getD i default with extra_hours := v } }

/-- Replace the hours_lost of event i of an order (out-of-range i leaves the
order unchanged). -/
def setEvLost (order : Order) (i : ℕ) (v : ℚ) : Order :=
  { order with events :=
      order.events.set i { order.events.getD i default with hours_lost := v } }

/-- The effective capacity the day-stepping loop consumes on a day: the
clamped net capacity when the day is examined (positive base, extra or lost)
and positive, and 0 otherwise (such a day changes nothing but the date). -/
def effcap (cal : WorkCalendar) (lost_map extra_map : List (ℤ × ℚ)) (d : ℤ) : ℚ :=
  let base := capacity_for_day cal d
  let lost := alGet lost_map d 0
  let extra := alGet extra_map d 0
  let cap := max (base - lost + extra) 0
  if (0 < base ∨ 0 < extra ∨ 0 < lost) ∧ 0 < cap then cap else 0

/-- The remaining hours of the phases of a list sharing a given parallel
group, in phase order (the claim's phrase: the phases sharing that id). -/
def groupRemainings (phases : List Phase) (g : ℤ) (quantity : ℤ)
    (equipment_map : List (String × ℤ)) : List ℚ :=
  (phases.filter (fun ph => ph.parallel_group = g)).map
    (fun ph => phase_remaining ph quantity equipment_map)

/-- The distinct positive parallel-group ids of a phase list. -/
def posGroupIds (phases : List Phase) : Finset ℤ :=
  ((phases.map (fun ph => ph.parallel_group)).filter (fun g => 0 < g)).toFinset

/-- Claim C8 as frozen: the sequential contribution is the sum over phases
whose parallel_group is exactly 0. -/
def specProductRemainingClaim (product : Product)
    (equipment_map : List (String × ℤ)) : ℚ :=
  ((product.phases.filter (fun ph => ph.parallel_group = 0)).map
    (fun ph => phase_remaining ph product.quantity equipment_map)).sum
  + (posGroupIds product.phases).sum
      (fun g => maxList (groupRemainings product.phases g product.quantity equipment_map))

/-- Claim C8 amended: the sequential contribution is the sum over phases
whose parallel_group is not positive, matching the code's else branch. -/
def specProductRemainingAmended (product : Product)
    (equipment_map : List (String × ℤ)) : ℚ :=
  ((product.phases.filter (fun ph => ph.parallel_group ≤ 0)).map
    (fun ph => phase_remaining ph product.quantity equipment_map)).sum
  + (posGroupIds product.phases).sum
      (fun g => maxList (groupRemainings product.phases g product.quantity equipment_map))

/-- The key bookkeeping of the group fold: the first-seen order of positive
parallel-group ids. -/
def prhKeyStep (ks : List ℤ) (ph : Phase) : List ℤ :=
  if 0 < ph.parallel_group ∧ ph.parallel_group ∉ ks then ks ++ [ph.parallel_group]
  else ks

/-- The group component of the phase loop of product_remaining_hours. -/
def prhGrpStep (quantity : ℤ) (equipment_map : List (String × ℤ))
    (gs : List (ℤ × List ℚ)) (ph : Phase) : List (ℤ × List ℚ) :=
  if 0 < ph.parallel_group then
    addToGroups gs ph.parallel_group (phase_remaining ph quantity equipment_map)
  else gs

/-- The sequential component of the phase loop of product_remaining_hours. -/
def prhSeqStep (quantity : ℤ) (equipment_map : List (String × ℤ))
    (t : ℚ) (ph : Phase) : ℚ :=
  if 0 < ph.parallel_group then t
  else t + phase_remaining ph quantity equipment_map

/-! ### Concrete instances used by counterexamples and witnesses
(day 0 is Monday 2024-01-01; instants are hours from 2024-01-01 00:00) -/

/-- A calendar of 30 base hours every day of the week. -/
def c1tpl : ShiftTemplate :=
  ⟨"T30", [⟨1, 30⟩, ⟨1, 30⟩, ⟨1, 30⟩, ⟨1, 30⟩, ⟨1, 30⟩, ⟨1, 30⟩, ⟨1, 30⟩]⟩

def c1cal : WorkCalendar := ⟨some c1tpl⟩

/-- 40 remaining hours from Monday 00:00, one overtime adjustment of 1 extra
hour on day 0. -/
def c1ord : Order :=
  ⟨"O-C1", 0, [⟨"P1", "", 1, 0, 0, [⟨"ph1", 40, 0, 0, "", ""⟩]⟩], [],
    [⟨0, 1, "overtime", []⟩], []⟩

/-- A calendar of 40 base hours every day of the week. -/
def c2tpl : ShiftTemplate :=
  ⟨"T40", [⟨1, 40⟩, ⟨1, 40⟩, ⟨1, 40⟩, ⟨1, 40⟩, ⟨1, 40⟩, ⟨1, 40⟩, ⟨1, 40⟩]⟩

def c2cal : WorkCalendar := ⟨some c2tpl⟩

/-- 40 remaining hours from Monday 00:00, one event of 0 lost hours on
day 0. -/
def c2ord : Order :=
  ⟨"O-C2", 0, [⟨"P1", "", 1, 0, 0, [⟨"ph1", 40, 0, 0, "", ""⟩]⟩],
    [⟨0, 0, "stoppage", ""⟩], [], []⟩

/-- A fully completed order starting at hour 7. -/
def c3ord : Order :=
  ⟨"O-C3", 7, [⟨"P", "", 1, 0, 0, [⟨"ph", 10, 10, 0, "", ""⟩]⟩], [], [], []⟩

/-- Scenario A calendar: 8 hours Monday to Friday, 0 hours on the weekend. -/
def c4tpl : ShiftTemplate :=
  ⟨"A", [⟨1, 8⟩, ⟨1, 8⟩, ⟨1, 8⟩, ⟨1, 8⟩, ⟨1, 8⟩, ⟨1, 0⟩, ⟨1, 0⟩]⟩

def c4cal : WorkCalendar := ⟨some c4tpl⟩

/-- Scenario A order: start Monday 2024-01-01 00:00, one sequential phase of
20 planned hours, nothing else. -/
def c4ord : Order :=
  ⟨"O-A", 0, [⟨"P1", "", 1, 0, 0, [⟨"ph1", 20, 0, 0, "", ""⟩]⟩], [], [], []⟩

/-- A week plan of 8 entries; entry 7 carries 8 hours. -/
def c5tpl : ShiftTemplate :=
  ⟨"T8", [⟨1, 1⟩, ⟨1, 2⟩, ⟨1, 3⟩, ⟨1, 4⟩, ⟨1, 5⟩, ⟨1, 6⟩, ⟨1, 7⟩, ⟨1, 8⟩]⟩

/-- The equipment-pooling example phase: 10 planned hours over machines A
and B. -/
def c6phase : Phase := ⟨"p", 10, 0, 0, "A,B", ""⟩

/-- A shift template with an empty week plan: base capacity 0 on every day. -/
def c7tpl : ShiftTemplate := ⟨"Z", []⟩

def c7cal : WorkCalendar := ⟨some c7tpl⟩

/-- An order with 10 remaining hours and no adjustments. -/
def c7ord : Order :=
  ⟨"O-C7", 0, [⟨"P", "", 1, 0, 0, [⟨"ph", 10, 0, 0, "", ""⟩]⟩], [], [], []⟩

/-- A product whose only phase sits in parallel group -1. -/
def c8prodX : Product := ⟨"P", "", 1, 0, 0, [⟨"ph", 5, 0, -1, "", ""⟩]⟩

/-- A product with two phases in the same parallel group, remaining hours 5
and 8. -/
def c8prodE : Product :=
  ⟨"P", "", 1, 0, 0, [⟨"a", 5, 0, 1, "", ""⟩, ⟨"b", 8, 0, 1, "", ""⟩]⟩

/-- A calendar of 8 base hours every day of the week. -/
def c10tpl : ShiftTemplate :=
  ⟨"T", [⟨1, 8⟩, ⟨1, 8⟩, ⟨1, 8⟩, ⟨1, 8⟩, ⟨1, 8⟩, ⟨1, 8⟩, ⟨1, 8⟩]⟩

def c10cal : WorkCalendar := ⟨some c10tpl⟩

/-- An order starting at 20:00 on day 0 with 5 remaining hours. -/
def c10ord : Order :=
  ⟨"O-C10", 20, [⟨"P", "", 1, 0, 0, [⟨"ph", 5, 0, 0, "", ""⟩]⟩], [], [], []⟩

/-! ### Association-list lemmas -/

theorem alGet_alSet_self {α β : Type} [DecidableEq α] :
    ∀ (m : List (α × β)) (k : α) (v dflt : β), alGet (alSet m k v) k dflt = v := by
  intro m
  induction m with
  | nil => intro k v dflt; simp [alSet, alGet]
  | cons p rest ih =>
    intro k v dflt
    obtain ⟨k0, w⟩ := p
    by_cases h : k0 = k
    · simp [alSet, alGet, h]
    · simp [alSet, alGet, h, ih]

theorem alGet_alSet_ne {α β : Type} [DecidableEq α] :
    ∀ (m : List (α × β)) (k d : α) (v dflt : β), k ≠ d →
      alGet (alSet m k v) d dflt = alGet m d dflt := by
  intro m
  induction m with
  | nil => intro k d v dflt h; simp [alSet, alGet, h]
  | cons p rest ih =>
    intro k d v dflt h
    obtain ⟨k0, w⟩ := p
    by_cases h0 : k0 = k
    · subst h0; simp [alSet, alGet, h]
    · simp only [alSet, if_neg h0]
      by_cases h1 : k0 = d
      · simp [alGet, h1]
      · simp [alGet, h1, ih k d v dflt h]

/-- What a ledger built by the get-add-set fold holds at a key: the initial
value plus the sum of the contributions filed under that key. -/
theorem alGet_fold_build {α : Type} (f : α → ℤ) (v : α → ℚ) :
    ∀ (l : List α) (m : List (ℤ × ℚ)) (d : ℤ),
      alGet (l.foldl (fun m x => alSet m (f x) (alGet m (f x) 0 + v x)) m) d 0
        = alGet m d 0 + ((l.filter (fun x => f x = d)).map v).sum := by
  intro l
  induction l with
  | nil => intro m d; simp
  | cons x xs ih =>
    intro m d
    rw [List.foldl_cons, ih]
    by_cases hd : f x = d
    · have h1 : alGet (alSet m (f x) (alGet m (f x) 0 + v x)) d 0
          = alGet m (f x) 0 + v x := by
        rw [← hd]; exact alGet_alSet_self m (f x) _ 0
      rw [h1, hd]
      simp [List.filter_cons, hd]
      ring
    · rw [alGet_alSet_ne m (f x) d _ 0 hd]
      simp [List.filter_cons, hd]

theorem build_lost_map_get (events : List Event) (d : ℤ) :
    alGet (build_lost_map events) d 0
      = ((events.filter (fun ev => ev.day = d)).map (fun ev => ev.hours_lost)).sum := by
  have h := alGet_fold_build (fun ev => ev.day) (fun ev => ev.hours_lost) events [] d
  simpa [build_lost_map, alGet] using h

theorem build_extra_map_get (adjustments : List CapacityAdjustment) (d : ℤ) :
    alGet (build_extra_map adjustments) d 0
      = ((adjustments.filter (fun adj => adj.day = d)).map adjExtraTotal).sum := by
  have h := alGet_fold_build (fun adj => adj.day) adjExtraTotal adjustments [] d
  simpa [build_extra_map, alGet] using h

/-- Raising one adjustment's contribution can only raise the per-day sums of
the extra-hours ledger. -/
theorem adj_filter_sum_set_le :
    ∀ (l : List CapacityAdjustment) (i : ℕ) (a2 : CapacityAdjustment),
      i < l.length → a2.day = (l.getD i default).day →
      adjExtraTotal (l.getD i default) ≤ adjExtraTotal a2 →
      ∀ d, ((l.filter (fun a => a.day = d)).map adjExtraTotal).sum
        ≤ (((l.set i a2).filter (fun a => a.day = d)).map adjExtraTotal).sum := by
  intro l
  induction l with
  | nil => intro i a2 h; exact absurd h (by simp)
  | cons x xs ih =>
    intro i a2 hi hf hv d
    cases i with
    | zero =>
      simp only [List.getD_cons_zero] at hf hv
      simp only [List.set]
      by_cases hd : x.day = d
      · have hd2 : a2.day = d := by rw [hf, hd]
        simp only [List.filter_cons, hd, hd2, decide_eq_true_eq, if_true, if_pos,
          List.map_cons, List.sum_cons]
        exact add_le_add_right hv _
      · have hd2 : ¬ a2.day = d := by rw [hf]; exact hd
        simp [List.filter_cons, hd, hd2]
    | succ j =>
      simp only [List.getD_cons_succ] at hf hv
      have hj : j < xs.length := by simpa using hi
      simp only [List.set]
      by_cases hd : x.day = d
      · simp only [List.filter_cons, hd, decide_eq_true_eq, if_true, if_pos,
          List.map_cons, List.sum_cons]
        exact add_le_add_left (ih j a2 hj hf hv d) _
      · simp only [List.filter_cons, hd, decide_eq_true_eq, if_false, if_neg]
        exact ih j a2 hj hf hv d

/-- Raising one event's lost hours can only raise the per-day sums of the
lost-hours ledger. -/
theorem ev_filter_sum_set_le :
    ∀ (l : List Event) (i : ℕ) (a2 : Event),
      i < l.length → a2.day = (l.getD i default).day →
      (l.getD i default).hours_lost ≤ a2.hours_lost →
      ∀ d, ((l.filter (fun ev => ev.day = d)).map (fun ev => ev.hours_lost)).sum
        ≤ (((l.set i a2).filter (fun ev => ev.day = d)).map (fun ev => ev.hours_lost)).sum := by
  intro l
  induction l with
  | nil => intro i a2 h; exact absurd h (by simp)
  | cons x xs ih =>
    intro i a2 hi hf hv d
    cases i with
    | zero =>
      simp only [List.getD_cons_zero] at hf hv
      simp only [List.set]
      by_cases hd : x.day = d
      · have hd2 : a2.day = d := by rw [hf, hd]
        simp only [List.filter_cons, hd, hd2, decide_eq_true_eq, if_true, if_pos,
          List.map_cons, List.sum_cons]
        exact add_le_add_right hv _
      · have hd2 : ¬ a2.day = d := by rw [hf]; exact hd
        simp [List.filter_cons, hd, hd2]
    | succ j =>
      simp only [List.getD_cons_succ] at hf hv
      have hj : j < xs.length := by simpa using hi
      simp only [List.set]
      by_cases hd : x.day = d
      · simp only [List.filter_cons, hd, decide_eq_true_eq, if_true, if_pos,
          List.map_cons, List.sum_cons]
        exact add_le_add_left (ih j a2 hj hf hv d) _
      · simp only [List.filter_cons, hd, decide_eq_true_eq, if_false, if_neg]
        exact ih j a2 hj hf hv d

/-- Replacing an event by one on the same day leaves the other days' filtered
lists unchanged. -/
theorem ev_filter_set_eq_of_ne_key :
    ∀ (l : List Event) (i : ℕ) (a2 : Event), a2.day = (l.getD i default).day →
      ∀ d, d ≠ (l.getD i default).day →
        (l.set i a2).filter (fun ev => ev.day = d) = l.filter (fun ev => ev.day = d) := by
  intro l
  induction l with
  | nil => intro i a2 hf d hd; rfl
  | cons x xs ih =>
    intro i a2 hf d hd
    cases i with
    | zero =>
      simp only [List.getD_cons_zero] at hf hd
      simp only [List.set]
      have h1 : ¬ a2.day = d := by rw [hf]; exact fun h => hd h.symm
      have h2 : ¬ x.day = d := fun h => hd h.symm
      simp [List.filter_cons, h1, h2]
    | succ j =>
      simp only [List.getD_cons_succ] at hf hd
      simp only [List.set, List.filter_cons]
      rw [ih j a2 hf d hd]

/-! ### Effective capacity and the day-stepping loop -/

theorem effcap_nonneg (cal : WorkCalendar) (lm em : List (ℤ × ℚ)) (d : ℤ) :
    0 ≤ effcap cal lm em d := by
  simp only [effcap]
  split_ifs with h
  · exact h.2.le
  · exact le_rfl

theorem effcap_le_of_extra_le (cal : WorkCalendar) (lm em1 em2 : List (ℤ × ℚ)) (d : ℤ)
    (h : alGet em1 d 0 ≤ alGet em2 d 0) :
    effcap cal lm em1 d ≤ effcap cal lm em2 d := by
  simp only [effcap]
  split_ifs with h1 h2 h2
  · exact max_le_max (by linarith) le_rfl
  · exfalso
    apply h2
    refine ⟨?_, lt_of_lt_of_le h1.2 (max_le_max (by linarith) le_rfl)⟩
    rcases h1.1 with hb | he | hlo
    · exact Or.inl hb
    · exact Or.inr (Or.inl (lt_of_lt_of_le he h))
    · exact Or.inr (Or.inr hlo)
  · exact le_max_right _ _
  · exact le_rfl

theorem effcap_anti_of_lost_le (cal : WorkCalendar) (lm1 lm2 em : List (ℤ × ℚ)) (d : ℤ)
    (hb : 0 < capacity_for_day cal d) (h : alGet lm1 d 0 ≤ alGet lm2 d 0) :
    effcap cal lm2 em d ≤ effcap cal lm1 em d := by
  simp only [effcap]
  split_ifs with h1 h2 h2
  · exact max_le_max (by linarith) le_rfl
  · exfalso
    exact h2 ⟨Or.inl hb, lt_of_lt_of_le h1.2 (max_le_max (by linarith) le_rfl)⟩
  · exact le_max_right _ _
  · exact le_rfl

theorem effcap_congr (cal : WorkCalendar) (lm1 lm2 em1 em2 : List (ℤ × ℚ)) (d : ℤ)
    (hl : alGet lm1 d 0 = alGet lm2 d 0) (he : alGet em1 d 0 = alGet em2 d 0) :
    effcap cal lm1 em1 d = effcap cal lm2 em2 d := by
  simp only [effcap, hl, he]

theorem eta_day_loop_zero (cal : WorkCalendar) (lm em : List (ℤ × ℚ)) (day : ℤ)
    (hl : ℚ) (dcm : List (ℤ × ℚ)) :
    eta_day_loop cal lm em 0 day hl dcm = none := rfl

/-- One iteration of the day-stepping loop, phrased through the effective
capacity: the loop terminates on a day exactly when the effective capacity is
positive and covers the hours left, and otherwise moves to the next day after
consuming the day's effective capacity. -/
theorem eta_day_loop_succ_eq (cal : WorkCalendar) (lm em : List (ℤ × ℚ)) (fuel : ℕ)
    (day : ℤ) (hl : ℚ) (dcm : List (ℤ × ℚ)) :
    eta_day_loop cal lm em (fuel + 1) day hl dcm =
      if 0 < effcap cal lm em day ∧ hl ≤ effcap cal lm em day then
        some ⟨day, hl,
          alSet dcm day (max (capacity_for_day cal day - alGet lm day 0 + alGet em day 0) 0)⟩
      else
        eta_day_loop cal lm em fuel (day + 1) (hl - effcap cal lm em day)
          (if 0 < capacity_for_day cal day ∨ 0 < alGet em day 0 ∨ 0 < alGet lm day 0 then
            alSet dcm day (max (capacity_for_day cal day - alGet lm day 0 + alGet em day 0) 0)
          else dcm) := by
  by_cases hA : 0 < capacity_for_day cal day ∨ 0 < alGet em day 0 ∨ 0 < alGet lm day 0
  · by_cases hB : 0 < max (capacity_for_day cal day - alGet lm day 0 + alGet em day 0) 0
    · by_cases hC : hl ≤ max (capacity_for_day cal day - alGet lm day 0 + alGet em day 0) 0
      · simp [eta_day_loop, effcap, hA, hB, hC]
      · simp [eta_day_loop, effcap, hA, hB, hC]
    · simp [eta_day_loop, effcap, hA, hB, sub_zero]
  · simp [eta_day_loop, effcap, hA, sub_zero]

theorem eta_day_loop_finish_day_ge (cal : WorkCalendar) (lm em : List (ℤ × ℚ)) :
    ∀ (fuel : ℕ) (day : ℤ) (hl : ℚ) (dcm : List (ℤ × ℚ)) (out : LoopOut),
      eta_day_loop cal lm em fuel day hl dcm = some out → day ≤ out.finish_day := by
  intro fuel
  induction fuel with
  | zero =>
    intro day hl dcm out h
    rw [eta_day_loop_zero] at h
    exact absurd h (by simp)
  | succ fuel ih =>
    intro day hl dcm out h
    rw [eta_day_loop_succ_eq] at h
    by_cases hc : 0 < effcap cal lm em day ∧ hl ≤ effcap cal lm em day
    · rw [if_pos hc] at h
      obtain rfl : (⟨day, hl, _⟩ : LoopOut) = out := Option.some.inj h
      exact le_rfl
    · rw [if_neg hc] at h
      have := ih (day + 1) _ _ _ h
      omega

/-- The key comparison: a run against pointwise larger effective capacities,
started with no more hours left, also succeeds and stops no later. -/
theorem eta_day_loop_mono (cal1 cal2 : WorkCalendar) (lm1 lm2 em1 em2 : List (ℤ × ℚ))
    (hcap : ∀ d, effcap cal1 lm1 em1 d ≤ effcap cal2 lm2 em2 d) :
    ∀ (fuel : ℕ) (day : ℤ) (hl1 hl2 : ℚ) (dcm1 dcm2 : List (ℤ × ℚ)) (out1 : LoopOut),
      hl2 ≤ hl1 →
      eta_day_loop cal1 lm1 em1 fuel day hl1 dcm1 = some out1 →
      ∃ out2, eta_day_loop cal2 lm2 em2 fuel day hl2 dcm2 = some out2 ∧
        out2.finish_day ≤ out1.finish_day := by
  intro fuel
  induction fuel with
  | zero =>
    intro day hl1 hl2 dcm1 dcm2 out1 hle h1
    rw [eta_day_loop_zero] at h1
    exact absurd h1 (by simp)
  | succ fuel ih =>
    intro day hl1 hl2 dcm1 dcm2 out1 hle h1
    rw [eta_day_loop_succ_eq] at h1
    rw [eta_day_loop_succ_eq]
    by_cases h2 : 0 < effcap cal2 lm2 em2 day ∧ hl2 ≤ effcap cal2 lm2 em2 day
    · rw [if_pos h2]
      refine ⟨_, rfl, ?_⟩
      by_cases h1c : 0 < effcap cal1 lm1 em1 day ∧ hl1 ≤ effcap cal1 lm1 em1 day
      · rw [if_pos h1c] at h1
        obtain rfl : (⟨day, hl1, _⟩ : LoopOut) = out1 := Option.some.inj h1
        exact le_rfl
      · rw [if_neg h1c] at h1
        have := eta_day_loop_finish_day_ge cal1 lm1 em1 fuel (day + 1) _ _ _ h1
        simp only []
        omega
    · rw [if_neg h2]
      have h1c : ¬ (0 < effcap cal1 lm1 em1 day ∧ hl1 ≤ effcap cal1 lm1 em1 day) := by
        intro hc
        exact h2 ⟨lt_of_lt_of_le hc.1 (hcap day),
          le_trans (le_trans hle hc.2) (hcap day)⟩
      rw [if_neg h1c] at h1
      exact ih (day + 1) (hl1 - effcap cal1 lm1 em1 day)
        (hl2 - effcap cal2 lm2 em2 day) _ _ out1 (sub_le_sub hle (hcap day)) h1

/-- With no effective capacity anywhere the loop always exhausts its budget. -/
theorem eta_day_loop_none_of_effcap_zero (cal : WorkCalendar) (lm em : List (ℤ × ℚ))
    (hz : ∀ d, effcap cal lm em d = 0) :
    ∀ (fuel : ℕ) (day : ℤ) (hl : ℚ) (dcm : List (ℤ × ℚ)),
      eta_day_loop cal lm em fuel day hl dcm = none := by
  intro fuel
  induction fuel with
  | zero => intro day hl dcm; exact eta_day_loop_zero cal lm em day hl dcm
  | succ fuel ih =>
    intro day hl dcm
    rw [eta_day_loop_succ_eq, hz day]
    rw [if_neg (by simp)]
    exact ih (day + 1) (hl - 0) _

/-! ### product_remaining_hours equals its grouped closed form -/

theorem prhStep_eq (quantity : ℤ) (em : List (String × ℤ))
    (acc : ℚ × List (ℤ × List ℚ)) (ph : Phase) :
    prhStep quantity em acc ph
      = (prhSeqStep quantity em acc.1 ph, prhGrpStep quantity em acc.2 ph) := by
  by_cases h : 0 < ph.parallel_group <;>
    simp [prhStep, prhSeqStep, prhGrpStep, h]

theorem foldl_prhStep_split (quantity : ℤ) (em : List (String × ℤ)) :
    ∀ (phases : List Phase) (t : ℚ) (gs : List (ℤ × List ℚ)),
      phases.foldl (prhStep quantity em) (t, gs)
        = (phases.foldl (prhSeqStep quantity em) t,
           phases.foldl (prhGrpStep quantity em) gs) := by
  intro phases
  induction phases with
  | nil => intro t gs; rfl
  | cons ph rest ih =>
    intro t gs
    rw [List.foldl_cons, List.foldl_cons, List.foldl_cons, prhStep_eq]
    exact ih _ _

theorem foldl_prhSeqStep_eq (quantity : ℤ) (em : List (String × ℤ)) :
    ∀ (phases : List Phase) (t : ℚ),
      phases.foldl (prhSeqStep quantity em) t
        = t + ((phases.filter (fun ph => ph.parallel_group ≤ 0)).map
            (fun ph => phase_remaining ph quantity em)).sum := by
  intro phases
  induction phases with
  | nil => intro t; simp
  | cons ph rest ih =>
    intro t
    rw [List.foldl_cons]
    by_cases h : 0 < ph.parallel_group
    · have h2 : ¬ ph.parallel_group ≤ 0 := not_le.mpr h
      simp only [prhSeqStep, if_pos h, List.filter_cons, h2, decide_eq_true_eq,
        if_neg, ih]
      simp [h2]
    · simp only [prhSeqStep, if_neg h, List.filter_cons, not_lt.mp h,
        decide_eq_true_eq, ih]
      have h2 : ph.parallel_group ≤ 0 := not_lt.mp h
      simp [h2]
      ring

theorem foldl_sumMaxes_eq :
    ∀ (gs : List (ℤ × List ℚ)) (t : ℚ),
      gs.foldl (fun total grp => total + maxList grp.2) t
        = t + (gs.map (fun grp => maxList grp.2)).sum := by
  intro gs
  induction gs with
  | nil => intro t; simp
  | cons g rest ih =>
    intro t
    rw [List.foldl_cons, ih]
    simp
    ring

theorem addToGroups_mem (G : ℤ → List ℚ) (g : ℤ) (v : ℚ) :
    ∀ (keys : List ℤ), keys.Nodup → g ∈ keys →
      addToGroups (keys.map (fun k => (k, G k))) g v
        = keys.map (fun k => (k, if k = g then G k ++ [v] else G k)) := by
  intro keys
  induction keys with
  | nil => intro _ h; exact absurd h (by simp)
  | cons k0 ks ih =>
    intro hnd hmem
    simp only [List.map_cons, addToGroups]
    by_cases h : k0 = g
    · subst h
      rw [if_pos rfl, if_pos rfl]
      have hnotin : k0 ∉ ks := (List.nodup_cons.mp hnd).1
      have : ks.map (fun k => (k, G k))
          = ks.map (fun k => (k, if k = k0 then G k ++ [v] else G k)) := by
        apply List.map_congr_left
        intro k hk
        have : k ≠ k0 := fun hEq => hnotin (hEq ▸ hk)
        rw [if_neg this]
      rw [← this]
    · rw [if_neg h, if_neg h]
      have hmem2 : g ∈ ks := by
        rcases List.mem_cons.mp hmem with h1 | h1
        · exact absurd h1.symm h
        · exact h1
      rw [ih (List.nodup_cons.mp hnd).2 hmem2]

theorem addToGroups_not_mem (g : ℤ) (v : ℚ) :
    ∀ (gs : List (ℤ × List ℚ)), (∀ p ∈ gs, p.1 ≠ g) →
      addToGroups gs g v = gs ++ [(g, [v])] := by
  intro gs
  induction gs with
  | nil => intro _; rfl
  | cons p rest ih =>
    intro h
    obtain ⟨k, vs⟩ := p
    simp only [addToGroups]
    rw [if_neg (h (k, vs) (by simp))]
    rw [ih (fun q hq => h q (by simp [hq]))]
    simp

theorem keyfold_mem :
    ∀ (phases : List Phase) (ks : List ℤ) (k : ℤ),
      k ∈ phases.foldl prhKeyStep ks
        ↔ k ∈ ks ∨ (0 < k ∧ ∃ ph ∈ phases, ph.parallel_group = k) := by
  intro phases
  induction phases with
  | nil => intro ks k; simp
  | cons ph rest ih =>
    intro ks k
    rw [List.foldl_cons, ih]
    simp only [prhKeyStep]
    by_cases h : 0 < ph.parallel_group ∧ ph.parallel_group ∉ ks
    · rw [if_pos h]
      constructor
      · rintro (hk | ⟨hpos, ph2, hmem, hgrp⟩)
        · rcases List.mem_append.mp hk with h1 | h1
          · exact Or.inl h1
          · have : k = ph.parallel_group := by simpa using h1
            subst this
            exact Or.inr ⟨h.1, ph, by simp, rfl⟩
        · exact Or.inr ⟨hpos, ph2, by simp [hmem], hgrp⟩
      · rintro (hk | ⟨hpos, ph2, hmem, hgrp⟩)
        · exact Or.inl (List.mem_append_left _ hk)
        · rcases List.mem_cons.mp hmem with h1 | h1
          · subst h1
            exact Or.inl (List.mem_append_right _ (by simp [hgrp]))
          · exact Or.inr ⟨hpos, ph2, h1, hgrp⟩
    · rw [if_neg h]
      push_neg at h
      constructor
      · rintro (hk | ⟨hpos, ph2, hmem, hgrp⟩)
        · exact Or.inl hk
        · exact Or.inr ⟨hpos, ph2, by simp [hmem], hgrp⟩
      · rintro (hk | ⟨hpos, ph2, hmem, hgrp⟩)
        · exact Or.inl hk
        · rcases List.mem_cons.mp hmem with h1 | h1
          · subst h1
            rw [hgrp] at h
            exact Or.inl (h hpos)
          · exact Or.inr ⟨hpos, ph2, h1, hgrp⟩

theorem keyfold_nodup :
    ∀ (phases : List Phase) (ks : List ℤ), ks.Nodup →
      (phases.foldl prhKeyStep ks).Nodup := by
  intro phases
  induction phases with
  | nil => intro ks h; exact h
  | cons ph rest ih =>
    intro ks h
    rw [List.foldl_cons]
    apply ih
    simp only [prhKeyStep]
    split_ifs with hc
    · simp [List.nodup_append, h, hc.2]
    · exact h

theorem groupRemainings_append (phases : List Phase) (ph : Phase) (g quantity : ℤ)
    (em : List (String × ℤ)) :
    groupRemainings (phases ++ [ph]) g quantity em
      = if ph.parallel_group = g
        then groupRemainings phases g quantity em ++ [phase_remaining ph quantity em]
        else groupRemainings phases g quantity em := by
  by_cases h : ph.parallel_group = g <;>
    simp [groupRemainings, List.filter_append, h]

theorem grpfold_canon (quantity : ℤ) (em : List (String × ℤ)) :
    ∀ (phases : List Phase),
      phases.foldl (prhGrpStep quantity em) []
        = (phases.foldl prhKeyStep []).map
            (fun k => (k, groupRemainings phases k quantity em)) := by
  intro phases
  induction phases using List.reverseRecOn with
  | nil => rfl
  | append_singleton rest ph ih =>
    rw [List.foldl_append, List.foldl_append]
    simp only [List.foldl_cons, List.foldl_nil]
    by_cases hg : 0 < ph.parallel_group
    · by_cases hmem : ph.parallel_group ∈ rest.foldl prhKeyStep []
      · simp only [prhGrpStep, if_pos hg]
        rw [ih, addToGroups_mem _ _ _ _ (keyfold_nodup rest [] (by simp)) hmem]
        simp only [prhKeyStep]
        rw [if_neg (fun hc => hc.2 hmem)]
        apply List.map_congr_left
        intro k hk
        rw [groupRemainings_append]
        by_cases hkg : k = ph.parallel_group
        · rw [if_pos hkg, if_pos hkg.symm]
        · rw [if_neg hkg, if_neg (fun hEq => hkg hEq.symm)]
      · simp only [prhGrpStep, if_pos hg]
        rw [ih]
        rw [addToGroups_not_mem _ _ _ (by
          intro p hp
          obtain ⟨k, hk, rfl⟩ := List.mem_map.mp hp
          dsimp only
          intro hEq
          subst hEq
          exact hmem hk)]
        simp only [prhKeyStep]
        rw [if_pos ⟨hg, hmem⟩, List.map_append]
        congr 1
        · apply List.map_congr_left
          intro k hk
          rw [groupRemainings_append]
          have : k ≠ ph.parallel_group := fun hEq => hmem (hEq ▸ hk)
          rw [if_neg (fun hEq => this hEq.symm)]
        · simp only [List.map_cons, List.map_nil]
          rw [groupRemainings_append, if_pos rfl]
          have hempty : groupRemainings rest ph.parallel_group quantity em = [] := by
            have hnone : ∀ ph2 ∈ rest, ¬ ph2.parallel_group = ph.parallel_group := by
              intro ph2 hph2 hEq
              exact hmem ((keyfold_mem rest [] ph.parallel_group).mpr
                (Or.inr ⟨hg, ph2, hph2, hEq⟩))
            simp only [groupRemainings]
            rw [List.filter_eq_nil_iff.mpr (by
              intro ph2 hph2
              simpa using hnone ph2 hph2)]
            rfl
          rw [hempty]
          rfl
    · simp only [prhGrpStep, if_neg hg, prhKeyStep]
      rw [if_neg (fun hc => hg hc.1), ih]
      apply List.map_congr_left
      intro k hk
      rw [groupRemainings_append]
      have hkpos : 0 < k := by
        rcases (keyfold_mem rest [] k).mp hk with h1 | h1
        · exact absurd h1 (by simp)
        · exact h1.1
      have hne : ¬ ph.parallel_group = k := by
        intro hEq
        rw [hEq] at hg
        exact hg hkpos
      rw [if_neg hne]

/-- utils.product_remaining_hours in closed form: the sum of the remaining
hours of the non-positive-group phases plus, over each distinct positive
group id, the maximum remaining hours within that group. -/
theorem product_remaining_hours_eq_amended (product : Product)
    (em : List (String × ℤ)) :
    product_remaining_hours product em = specProductRemainingAmended product em := by
  show (product.phases.foldl (prhStep product.quantity em) (0, [])).2.foldl
      (fun total grp => total + maxList grp.2)
      (product.phases.foldl (prhStep product.quantity em) (0, [])).1
    = specProductRemainingAmended product em
  rw [foldl_prhStep_split, foldl_sumMaxes_eq, foldl_prhSeqStep_eq, grpfold_canon,
    List.map_map]
  rw [zero_add]
  unfold specProductRemainingAmended
  congr 1
  have hnd := keyfold_nodup product.phases [] (by simp)
  rw [← List.sum_toFinset _ hnd]
  have hset : (product.phases.foldl prhKeyStep []).toFinset
      = posGroupIds product.phases := by
    apply Finset.ext
    intro a
    simp only [List.mem_toFinset, keyfold_mem, posGroupIds, List.mem_filter,
      List.mem_map]
    constructor
    · rintro (h | ⟨hpos, ph, hmem, hgrp⟩)
      · exact absurd h (by simp)
      · exact ⟨⟨ph, hmem, hgrp⟩, by simpa using hpos⟩
    · rintro ⟨⟨ph, hmem, hgrp⟩, hpos⟩
      exact Or.inr ⟨by simpa using hpos, ph, hmem, hgrp⟩
  rw [hset]
  rfl

/-! ### Zero-remaining lemmas -/

theorem phase_effective_hours_of_nonpos (phase : Phase) (quantity : ℤ)
    (em : List (String × ℤ)) (h : phase.planned_hours ≤ 0) :
    phase_effective_hours phase quantity em = 0 := by
  have hb : max 0 phase.planned_hours = 0 := max_eq_left h
  simp only [phase_effective_hours, hb]
  split_ifs <;> simp

theorem phase_remaining_of_completed (phase : Phase) (quantity : ℤ)
    (em : List (String × ℤ)) (h : phase.completed_hours = phase.planned_hours) :
    phase_remaining phase quantity em = 0 := by
  rcases le_or_lt phase.planned_hours 0 with hp | hp
  · rw [phase_remaining, phase_effective_hours_of_nonpos _ _ _ hp, zero_mul]
  · have hr : phase_completion_ratio phase quantity = 1 := by
      simp only [phase_completion_ratio, phase_total_hours]
      have htot : max 0 phase.planned_hours = phase.planned_hours := max_eq_right hp.le
      rw [htot, if_neg (not_le.mpr hp), h]
      rw [max_eq_right hp.le, min_self, div_self (ne_of_gt hp)]
    rw [phase_remaining, hr]
    ring

theorem foldl_max_zero :
    ∀ (l : List ℚ) (a : ℚ), (∀ x ∈ l, x = 0) → a = 0 → l.foldl max a = 0 := by
  intro l
  induction l with
  | nil => intro a _ ha; exact ha
  | cons x xs ih =>
    intro a hall ha
    rw [List.foldl_cons]
    exact ih _ (fun y hy => hall y (by simp [hy]))
      (by rw [ha, hall x (by simp)]; simp)

theorem maxList_eq_zero (l : List ℚ) (h : ∀ x ∈ l, x = 0) : maxList l = 0 := by
  cases l with
  | nil => rfl
  | cons x xs =>
    exact foldl_max_zero xs x (fun y hy => h y (by simp [hy])) (h x (by simp))

theorem product_remaining_hours_of_completed (p : Product) (em : List (String × ℤ))
    (h : ∀ ph ∈ p.phases, ph.completed_hours = ph.planned_hours) :
    product_remaining_hours p em = 0 := by
  rw [product_remaining_hours_eq_amended]
  unfold specProductRemainingAmended
  have hz : ∀ ph ∈ p.phases, phase_remaining ph p.quantity em = 0 :=
    fun ph hph => phase_remaining_of_completed _ _ _ (h ph hph)
  have h1 : ((p.phases.filter (fun ph => ph.parallel_group ≤ 0)).map
      (fun ph => phase_remaining ph p.quantity em)).sum = 0 := by
    apply List.sum_eq_zero
    intro x hx
    obtain ⟨ph, hph, rfl⟩ := List.mem_map.mp hx
    exact hz ph (List.mem_of_mem_filter hph)
  have h2 : (posGroupIds p.phases).sum
      (fun g => maxList (groupRemainings p.phases g p.quantity em)) = 0 := by
    apply Finset.sum_eq_zero
    intro g _
    apply maxList_eq_zero
    intro x hx
    obtain ⟨ph, hph, rfl⟩ := List.mem_map.mp hx
    exact hz ph (List.mem_of_mem_filter hph)
  rw [h1, h2, add_zero]

/-! ### Ledger comparison lemmas for modified orders -/

theorem setAdjExtra_adjustments (order : Order) (i : ℕ) (v : ℚ) :
    (setAdjExtra order i v).adjustments
      = order.adjustments.set i
          { order.adjustments.getD i default with extra_hours := v } := rfl

theorem setEvLost_events (order : Order) (i : ℕ) (v : ℚ) :
    (setEvLost order i v).events
      = order.events.set i
          { order.events.getD i default with hours_lost := v } := rfl

theorem adjExtraTotal_le (a : CapacityAdjustment) (v : ℚ) (hv : a.extra_hours ≤ v) :
    adjExtraTotal a ≤ adjExtraTotal { a with extra_hours := v } := by
  unfold adjExtraTotal
  exact mul_le_mul_of_nonneg_right hv (by positivity)

theorem extra_get_le_setAdjExtra (order : Order) (i : ℕ) (v : ℚ)
    (hi : i < order.adjustments.length)
    (hv : (order.adjustments.getD i default).extra_hours ≤ v) (d : ℤ) :
    alGet (build_extra_map order.adjustments) d 0
      ≤ alGet (build_extra_map (setAdjExtra order i v).adjustments) d 0 := by
  rw [setAdjExtra_adjustments, build_extra_map_get, build_extra_map_get]
  have hday : ({ order.adjustments.getD i default with extra_hours := v }
      : CapacityAdjustment).day = (order.adjustments.getD i default).day := rfl
  exact adj_filter_sum_set_le order.adjustments i
    { order.adjustments.getD i default with extra_hours := v } hi hday
    (adjExtraTotal_le _ v hv) d

theorem lost_get_le_setEvLost (order : Order) (i : ℕ) (v : ℚ)
    (hi : i < order.events.length)
    (hv : (order.events.getD i default).hours_lost ≤ v) (d : ℤ) :
    alGet (build_lost_map order.events) d 0
      ≤ alGet (build_lost_map (setEvLost order i v).events) d 0 := by
  rw [setEvLost_events, build_lost_map_get, build_lost_map_get]
  have hday : ({ order.events.getD i default with hours_lost := v }
      : Event).day = (order.events.getD i default).day := rfl
  exact ev_filter_sum_set_le order.events i
    { order.events.getD i default with hours_lost := v } hi hday hv d

theorem lost_get_off_setEvLost (order : Order) (i : ℕ) (v : ℚ) (d : ℤ)
    (hd : d ≠ (order.events.getD i default).day) :
    alGet (build_lost_map (setEvLost order i v).events) d 0
      = alGet (build_lost_map order.events) d 0 := by
  rw [setEvLost_events, build_lost_map_get, build_lost_map_get]
  have hday : ({ order.events.getD i default with hours_lost := v }
      : Event).day = (order.events.getD i default).day := rfl
  rw [ev_filter_set_eq_of_ne_key order.events i
    { order.events.getD i default with hours_lost := v } hday d hd]

/-! ### compute_eta plumbing -/

theorem compute_eta_isSome_of_day_phase (order : Order) (cal : WorkCalendar)
    (out : LoopOut) (hpos : 0 < order_remaining_hours order)
    (h : compute_eta_day_phase order cal = some out) :
    (compute_eta order cal).isSome := by
  simp only [compute_eta]
  rw [if_neg (not_le.mpr hpos), h]
  rfl

theorem setAdjExtra_events (order : Order) (i : ℕ) (v : ℚ) :
    (setAdjExtra order i v).events = order.events := rfl

theorem setAdjExtra_start_dt (order : Order) (i : ℕ) (v : ℚ) :
    (setAdjExtra order i v).start_dt = order.start_dt := rfl

theorem order_remaining_setAdjExtra (order : Order) (i : ℕ) (v : ℚ) :
    order_remaining_hours (setAdjExtra order i v) = order_remaining_hours order := rfl

theorem order_remaining_setEvLost (order : Order) (i : ℕ) (v : ℚ) :
    order_remaining_hours (setEvLost order i v) = order_remaining_hours order := rfl

theorem setEvLost_adjustments (order : Order) (i : ℕ) (v : ℚ) :
    (setEvLost order i v).adjustments = order.adjustments := rfl

theorem setEvLost_start_dt (order : Order) (i : ℕ) (v : ℚ) :
    (setEvLost order i v).start_dt = order.start_dt := rfl

/-! ### Claim theorems -/

/-- Claim C1, counterexample: in the order c1ord (40 remaining hours, 30 base
hours per day, one adjustment of 1 extra hour on day 0), raising the
adjustment's extra_hours from 1 to 10 moves the finish instant returned by
compute_eta from hour 42 to hour 49, i.e. strictly later, refuting the claim
that it can never move later. -/
theorem C1_counterexample :
    (c1ord.adjustments.getD 0 default).extra_hours < 10
    ∧ (compute_eta c1ord c1cal).map EtaResult.eta_dt = some 42
    ∧ (compute_eta (setAdjExtra c1ord 0 10) c1cal).map EtaResult.eta_dt = some 49
    ∧ ¬ ((49 : ℚ) ≤ 42) := by with_unfolding_all decide

/-- Claim C1, amended: replacing an adjustment's extra_hours by a strictly
larger value keeps the day-stepping phase of compute_eta succeeding and never
moves the terminal day of the loop (the day whose 09:00 anchors the returned
finish instant) later; the finish instant itself can still move later because
the leftover hours are added as wall-clock hours, see the counterexample. -/
theorem C1_extra_hours_monotone_finish_day (order : Order) (cal : WorkCalendar)
    (i : ℕ) (v : ℚ) (out : LoopOut)
    (hi : i < order.adjustments.length)
    (hv : (order.adjustments.getD i default).extra_hours < v)
    (hout : compute_eta_day_phase order cal = some out) :
    ∃ out2, compute_eta_day_phase (setAdjExtra order i v) cal = some out2
      ∧ out2.finish_day ≤ out.finish_day
      ∧ (0 < order_remaining_hours order →
          (compute_eta (setAdjExtra order i v) cal).isSome) := by
  have hcap : ∀ d,
      effcap cal (build_lost_map order.events) (build_extra_map order.adjustments) d
        ≤ effcap cal (build_lost_map order.events)
            (build_extra_map (setAdjExtra order i v).adjustments) d :=
    fun d => effcap_le_of_extra_le cal _ _ _ d
      (extra_get_le_setAdjExtra order i v hi hv.le d)
  obtain ⟨out2, h2, hday⟩ := eta_day_loop_mono cal cal _ _ _ _ hcap 3650
    (dateOf order.start_dt) (order_remaining_hours order) (order_remaining_hours order)
    [] [] out le_rfl hout
  have hphase : compute_eta_day_phase (setAdjExtra order i v) cal = some out2 := by
    show eta_day_loop cal (build_lost_map (setAdjExtra order i v).events)
      (build_extra_map (setAdjExtra order i v).adjustments) 3650
      (dateOf (setAdjExtra order i v).start_dt)
      (order_remaining_hours (setAdjExtra order i v)) [] = some out2
    rw [setAdjExtra_events, setAdjExtra_start_dt, order_remaining_setAdjExtra]
    exact h2
  exact ⟨out2, hphase, hday, fun hpos =>
    compute_eta_isSome_of_day_phase _ cal out2
      (by rw [order_remaining_setAdjExtra]; exact hpos) hphase⟩

/-- Claim C1, amended, witness at the counterexample order. -/
theorem C1_extra_hours_monotone_finish_day_witness :
    ∃ out2, compute_eta_day_phase (setAdjExtra c1ord 0 10) c1cal = some out2
      ∧ out2.finish_day ≤ ((⟨1, 9, [(0, 31), (1, 30)]⟩ : LoopOut)).finish_day
      ∧ (0 < order_remaining_hours c1ord →
          (compute_eta (setAdjExtra c1ord 0 10) c1cal).isSome) :=
  C1_extra_hours_monotone_finish_day c1ord c1cal 0 10 ⟨1, 9, [(0, 31), (1, 30)]⟩
    (by decide) (by with_unfolding_all decide) (by with_unfolding_all decide)

/-- Claim C2, counterexample: in the order c2ord (40 remaining hours, 40 base
hours per day, one event of 0 lost hours on day 0, which the loop visits and
which has positive base capacity), raising the event's hours_lost from 0 to 1
moves the finish instant returned by compute_eta from hour 49 to hour 34,
i.e. strictly earlier, refuting the claim that it can never move earlier. -/
theorem C2_counterexample :
    (c2ord.events.getD 0 default).hours_lost < 1
    ∧ 0 < capacity_for_day c2cal (c2ord.events.getD 0 default).day
    ∧ dateOf c2ord.start_dt ≤ (c2ord.events.getD 0 default).day
    ∧ (c2ord.events.getD 0 default).day ≤ (0 : ℤ)
    ∧ (compute_eta c2ord c2cal).map EtaResult.eta_dt = some 49
    ∧ (compute_eta (setEvLost c2ord 0 1) c2cal).map EtaResult.eta_dt = some 34
    ∧ ¬ ((49 : ℚ) ≤ 34) := by with_unfolding_all decide

/-- Claim C2, amended: replacing an event's hours_lost by a strictly larger
value, when the event's day has positive base capacity and is visited by the
loop, never moves the terminal day of the day-stepping loop earlier whenever
the modified run succeeds; the finish instant itself can still move earlier,
see the counterexample. -/
theorem C2_hours_lost_monotone_finish_day (order : Order) (cal : WorkCalendar)
    (i : ℕ) (v : ℚ) (out out2 : LoopOut)
    (hi : i < order.events.length)
    (hv : (order.events.getD i default).hours_lost < v)
    (hbase : 0 < capacity_for_day cal (order.events.getD i default).day)
    (hvisit : dateOf order.start_dt ≤ (order.events.getD i default).day
      ∧ (order.events.getD i default).day ≤ out.finish_day)
    (hout : compute_eta_day_phase order cal = some out)
    (hout2 : compute_eta_day_phase (setEvLost order i v) cal = some out2) :
    out.finish_day ≤ out2.finish_day := by
  have hcap : ∀ d,
      effcap cal (build_lost_map (setEvLost order i v).events)
        (build_extra_map order.adjustments) d
      ≤ effcap cal (build_lost_map order.events)
          (build_extra_map order.adjustments) d := by
    intro d
    by_cases hd : d = (order.events.getD i default).day
    · subst hd
      exact effcap_anti_of_lost_le cal _ _ _ _ hbase
        (lost_get_le_setEvLost order i v hi hv.le _)
    · exact le_of_eq (effcap_congr cal _ _ _ _ d
        (lost_get_off_setEvLost order i v d hd) rfl)
  have hout2A : eta_day_loop cal (build_lost_map (setEvLost order i v).events)
      (build_extra_map order.adjustments) 3650 (dateOf order.start_dt)
      (order_remaining_hours order) [] = some out2 := by
    have h := hout2
    rw [show compute_eta_day_phase (setEvLost order i v) cal
        = eta_day_loop cal (build_lost_map (setEvLost order i v).events)
            (build_extra_map (setEvLost order i v).adjustments) 3650
            (dateOf (setEvLost order i v).start_dt)
            (order_remaining_hours (setEvLost order i v)) [] from rfl] at h
    rw [setEvLost_adjustments, setEvLost_start_dt, order_remaining_setEvLost] at h
    exact h
  obtain ⟨out3, h3, hday⟩ := eta_day_loop_mono cal cal _ _ _ _ hcap 3650
    (dateOf order.start_dt) (order_remaining_hours order) (order_remaining_hours order)
    [] [] out2 le_rfl hout2A
  have h4 : compute_eta_day_phase order cal = some out3 := h3
  rw [hout] at h4
  obtain rfl : out = out3 := Option.some.inj h4
  exact hday

/-- Claim C2, amended, witness at the counterexample order. -/
theorem C2_hours_lost_monotone_finish_day_witness :
    ((⟨0, 40, [(0, 40)]⟩ : LoopOut)).finish_day
      ≤ ((⟨1, 1, [(0, 39), (1, 40)]⟩ : LoopOut)).finish_day :=
  C2_hours_lost_monotone_finish_day c2ord c2cal 0 1
    ⟨0, 40, [(0, 40)]⟩ ⟨1, 1, [(0, 39), (1, 40)]⟩
    (by decide) (by decide) (by with_unfolding_all decide)
    (by with_unfolding_all decide) (by with_unfolding_all decide)
    (by with_unfolding_all decide)

/-- Claim C3: when every phase of every product is fully completed,
compute_eta returns the start instant, zero remaining hours and an empty
daily capacity map, through the early branch that performs no day-stepping. -/
theorem C3_completed_order_eta (order : Order) (cal : WorkCalendar)
    (h : ∀ p ∈ order.products, ∀ ph ∈ p.phases,
      ph.completed_hours = ph.planned_hours) :
    compute_eta order cal = some ⟨order.start_dt, 0, []⟩ := by
  have hrem : order_remaining_hours order = 0 := by
    unfold order_remaining_hours
    apply List.sum_eq_zero
    intro x hx
    obtain ⟨p, hp, rfl⟩ := List.mem_map.mp hx
    exact product_remaining_hours_of_completed p _ (h p hp)
  simp only [compute_eta]
  rw [if_pos (le_of_eq hrem)]

/-- Claim C3, witness: a fully completed one-phase order starting at hour 7. -/
theorem C3_completed_order_eta_witness :
    compute_eta c3ord c1cal = some ⟨(7 : ℚ), 0, []⟩ :=
  C3_completed_order_eta c3ord c1cal (by decide)


/-- Claim C4: Scenario A.  Start Monday 2024-01-01 00:00 (hour 0), 8 base
hours Monday through Friday, one sequential phase of 20 planned hours:
compute_eta finishes at hour 61, which is 13:00 on Wednesday 2024-01-03
(day 2), having consumed 8 + 8 + 4 hours on days 0, 1, 2. -/
theorem C4_scenario_A :
    compute_eta c4ord c4cal = some ⟨61, 20, [(0, 8), (1, 8), (2, 8)]⟩
    ∧ (61 : ℚ) = 2 * 24 + 9 + 4 := by with_unfolding_all decide

/-- Claim C5, counterexample: an 8-entry week plan whose entry 7 carries 8
hours.  The weekday index 7 is greater than 6, so the claim predicts 0, but
hours_for_weekday only rejects indices at or past the plan's length and
returns 8. -/
theorem C5_counterexample :
    (6 : ℤ) < 7
    ∧ ¬ (c5tpl.week_plan.length < 7)
    ∧ ¬ ((7 : ℤ) < 0)
    ∧ c5tpl.hours_for_weekday 7 = 8
    ∧ (8 : ℚ) ≠ 0 := by with_unfolding_all decide

/-- Claim C5, amended: hours_for_weekday returns 0 when the week plan has
fewer than 7 entries, or the weekday index is negative, or the index is at or
past the length of the week plan (rather than merely greater than 6);
otherwise it returns week_plan[w].total_hours(). -/
theorem C5_hours_for_weekday_cases (t : ShiftTemplate) (w : ℤ) :
    t.hours_for_weekday w =
      if t.week_plan.length < 7 ∨ w < 0 ∨ (t.week_plan.length : ℤ) ≤ w then 0
      else (t.week_plan.getD w.toNat ⟨0, 0⟩).total_hours := by
  unfold ShiftTemplate.hours_for_weekday
  by_cases h1 : w < 0
  · simp [h1]
  · by_cases h2 : t.week_plan.length < 7
    · simp [h1, h2]
    · by_cases h3 : (t.week_plan.length : ℤ) ≤ w
      · simp [h1, h2, h3]
      · simp [h1, h2, h3]

/-- Claim C6: phase_effective_hours is max(0, planned_hours) divided by the
pooled availability over the normalized equipment ids when that sum is
positive, and max(0, planned_hours) otherwise (no ids, or zero pooled
availability); in particular the A,B pooling example yields 10. -/
theorem C6_phase_effective_hours_pooling :
    (∀ (phase : Phase) (quantity : ℤ) (em : List (String × ℤ)),
      phase_effective_hours phase quantity em =
        if 0 < ((split_equipment_ids phase.equipment_id).map
            (fun id => max 0 (alGet em id 0))).sum
        then max 0 phase.planned_hours
          / ((((split_equipment_ids phase.equipment_id).map
              (fun id => max 0 (alGet em id 0))).sum : ℤ) : ℚ)
        else max 0 phase.planned_hours)
    ∧ phase_effective_hours c6phase 1 [("A", 1), ("B", 0)] = 10 := by
  constructor
  · intro phase quantity em
    by_cases hids : split_equipment_ids phase.equipment_id = []
    · simp [phase_effective_hours, hids]
    · by_cases hav : 0 < ((split_equipment_ids phase.equipment_id).map
          (fun id => max 0 (alGet em id 0))).sum
      · simp [phase_effective_hours, hids, hav]
      · simp [phase_effective_hours, hids, hav]
  · with_unfolding_all decide

/-- Claim C7: an order with positive remaining hours, a calendar yielding 0
base capacity on every day, and no adjustments makes compute_eta exhaust its
3650-iteration budget and fail (the modelled RuntimeError). -/
theorem C7_zero_calendar_fails (order : Order) (cal : WorkCalendar)
    (hrem : 0 < order_remaining_hours order)
    (hcal : ∀ d, capacity_for_day cal d = 0)
    (hadj : order.adjustments = []) :
    compute_eta order cal = none := by
  have hex : build_extra_map order.adjustments = [] := by rw [hadj]; rfl
  have hz : ∀ d, effcap cal (build_lost_map order.events)
      (build_extra_map order.adjustments) d = 0 := by
    intro d
    simp only [effcap, hcal d, hex, alGet]
    split_ifs with h
    · exfalso
      rcases h.1 with h0 | h0 | h0
      · exact absurd h0 (lt_irrefl 0)
      · exact absurd h0 (lt_irrefl 0)
      · have hle : (0 : ℚ) - alGet (build_lost_map order.events) d 0 + 0 ≤ 0 := by
          linarith
        have h2 := h.2
        rw [max_eq_right hle] at h2
        exact absurd h2 (lt_irrefl 0)
    · rfl
  have hloop := eta_day_loop_none_of_effcap_zero cal _ _ hz 3650
    (dateOf order.start_dt) (order_remaining_hours order) []
  have hphase : compute_eta_day_phase order cal = none := hloop
  simp only [compute_eta]
  rw [if_neg (not_le.mpr hrem), hphase]

/-- Claim C7, witness: 10 remaining hours against an empty week plan. -/
theorem C7_zero_calendar_fails_witness : compute_eta c7ord c7cal = none :=
  C7_zero_calendar_fails c7ord c7cal (by with_unfolding_all decide)
    (fun d => by simp [capacity_for_day, c7cal, c7tpl, ShiftTemplate.hours_for_weekday])
    rfl

/-- Claim C8, counterexample: a product whose only phase has parallel_group
-1 and remaining hours 5.  The code files it under the sequential bucket
(product_remaining_hours = 5), while the claim's formula (sum over phases
with parallel_group exactly 0, plus per-positive-group maxima) yields 0. -/
theorem C8_counterexample :
    product_remaining_hours c8prodX [] = 5
    ∧ specProductRemainingClaim c8prodX [] = 0
    ∧ (5 : ℚ) ≠ 0 := by with_unfolding_all decide

/-- Claim C8, amended: product_remaining_hours equals the sum of the
remaining hours of the phases with non-positive parallel_group (the code's
sequential bucket) plus, for each distinct positive parallel_group id, the
maximum remaining hours among the phases sharing that id; the two-phase
5/8-in-one-group example yields 8. -/
theorem C8_grouping :
    (∀ (product : Product) (em : List (String × ℤ)),
      product_remaining_hours product em = specProductRemainingAmended product em)
    ∧ product_remaining_hours c8prodE [] = 8 :=
  ⟨fun product em => product_remaining_hours_eq_amended product em,
    by with_unfolding_all decide⟩

/-- Claim C9: the extra-hours ledger built by compute_eta maps each date to
the sum, over the adjustments on that date, of extra_hours times
max(1, number of named equipment ids) — an empty equipment list contributes
exactly extra_hours, a list of n machines contributes extra_hours times n,
independently of available_count. -/
theorem C9_extra_ledger (order : Order) (d : ℤ) :
    alGet (build_extra_map order.adjustments) d 0
      = ((order.adjustments.filter (fun adj => adj.day = d)).map
          (fun adj => adj.extra_hours * ((max 1 adj.equipment_ids.length : ℕ) : ℚ))).sum := by
  rw [build_extra_map_get]
  congr 1
  apply List.map_congr_left
  intro a _
  unfold adjExtraTotal
  congr 1
  have hmax : (max (if a.equipment_ids.isEmpty then 1 else a.equipment_ids.length) 1)
      = max 1 a.equipment_ids.length := by
    cases a.equipment_ids with
    | nil => rfl
    | cons x xs =>
      simp only [List.isEmpty_cons, Bool.false_eq_true, if_false, List.length_cons]
      omega
  rw [hmax]

/-- Claim C10: an order starting at 20:00 on a day whose effective capacity
(8 hours) covers its 5 remaining hours finishes at hour 14 (09:00 + 5h on the
start day), strictly before its own start instant of hour 20. -/
theorem C10_finish_before_start :
    0 < order_remaining_hours c10ord
    ∧ ((dateOf c10ord.start_dt : ℤ) : ℚ) * 24 + 9 < c10ord.start_dt
    ∧ order_remaining_hours c10ord
        ≤ effcap c10cal (build_lost_map c10ord.events)
            (build_extra_map c10ord.adjustments) (dateOf c10ord.start_dt)
    ∧ (compute_eta c10ord c10cal).map EtaResult.eta_dt = some 14
    ∧ (14 : ℚ) < c10ord.start_dt := by with_unfolding_all decide

end SINCO
